import Mathlib

/-!
Verification of the subtitle timeline reconstruction pipeline.

A shallow embedding of the subtitle pipeline of this repository
(`srt_utils.py` and `audio_processing.py`): the subtitle record format,
the timestamp codec, the subtitle merger and the segment combiner.
Python strings are modelled as `List Char` (the inputs the pipeline
handles are ASCII; the Python whitespace and digit classes are modelled
on their ASCII parts).  Python's unbounded non-negative integers are
`Nat`; where the source clamps a possibly negative value the model takes
an `Int` and clamps with `Int.toNat`.
-/

/-- The ASCII whitespace characters of Python's `str.strip` / regex `\s`. -/
def pyWs (c : Char) : Bool :=
  c = ' ' || c = '\t' || c = '\n' || c = '\r' || c = '\x0b' || c = '\x0c'

/-- Python `str.rstrip()`: drop trailing whitespace. -/
def pyRstrip (l : List Char) : List Char :=
  (l.reverse.dropWhile pyWs).reverse

/-- Python `str.strip()`: drop leading and trailing whitespace. -/
def pyStrip (l : List Char) : List Char :=
  pyRstrip (l.dropWhile pyWs)

/-- Python `str.split(sep)` for a one-character separator: split at every
occurrence, keeping empty pieces (`"a::b".split(":") == ["a","","b"]`,
`"".split(":") == [""]`). -/
def pySplit (sep : Char) : List Char → List (List Char)
  | [] => [[]]
  | c :: cs =>
    if c = sep then [] :: pySplit sep cs
    else
      match pySplit sep cs with
      | [] => [[c]]
      | h :: t => (c :: h) :: t

/-- Value of a decimal digit character. -/
def digitVal (c : Char) : Nat := c.toNat - 48

/-- Value of a string of decimal digits, most significant first
(leading zeros allowed, as for Python `int`). -/
def valNat (l : List Char) : Nat :=
  l.foldl (fun a c => 10 * a + digitVal c) 0

/-- Python `int(s)` on the strings this pipeline feeds it: a non-empty
all-digit string parses to its value, anything else raises (modelled as
`none`, which each caller turns into its own fallback). -/
def parseNat (l : List Char) : Option Nat :=
  if l ≠ [] ∧ ∀ c ∈ l, c.isDigit then some (valNat l) else none

/-- The character of a decimal digit. -/
def digitChar (d : Nat) : Char := Char.ofNat (48 + d)

/-- Repeated division by 10, most significant digit first; `fuel ≥ n`
bounds the recursion depth (a number has no more decimal digits than its
value). -/
def natToCharsAux : Nat → Nat → List Char → List Char
  | 0, _, acc => acc
  | fuel + 1, n, acc =>
    if n = 0 then acc
    else natToCharsAux fuel (n / 10) (digitChar (n % 10) :: acc)

/-- Python `str(n)` for a natural number: its decimal digits. -/
def natToChars (n : Nat) : List Char :=
  if n = 0 then ['0'] else natToCharsAux n n []

/-- Python's `f"{n:0wd}"` zero padding: pad on the left with `'0'` up to
width `w`, keeping all digits when there are more. -/
def padZero (w : Nat) (l : List Char) : List Char :=
  List.replicate (w - l.length) '0' ++ l

/-- Model of `audio_processing._ms_to_srt_time`: milliseconds to `HH:MM:SS,mmm`
(negative input is clamped to zero, decomposition by `divmod` with
3600000 / 60000 / 1000). -/
def msToSrtTime (t : Int) : List Char :=
  let ms := t.toNat
  let h := ms / 3600000
  let r1 := ms % 3600000
  let m := r1 / 60000
  let r2 := r1 % 60000
  let s := r2 / 1000
  let msR := r2 % 1000
  padZero 2 (natToChars h) ++ ':' :: (padZero 2 (natToChars m) ++
    ':' :: (padZero 2 (natToChars s) ++ ',' :: padZero 3 (natToChars msR)))

/-- Model of `audio_processing._srt_time_to_ms`: split on `':'`, split the third
part on `','`, convert the four pieces with `int`; any failure (missing
part or unparseable piece) is caught and yields 0. -/
def srtTimeToMs (l : List Char) : Nat :=
  match pySplit ':' l with
  | p0 :: p1 :: p2 :: _ =>
    match pySplit ',' p2 with
    | q0 :: q1 :: _ =>
      match parseNat p0, parseNat p1, parseNat q0, parseNat q1 with
      | some h, some m, some s, some ms =>
        h * 3600000 + m * 60000 + s * 1000 + ms
      | _, _, _, _ => 0
    | _ => 0
  | _ => 0

/-! ## Subtitle entries and the merger (`srt_utils.merge_subtitles`) -/

/-- A parsed subtitle entry as `srt_utils.parse_srt` builds it: the source
index, the two timestamps kept as their raw text form, and the caption text. -/
structure SrtEntry where
  index : Nat
  start : List Char
  stop : List Char
  text : List Char
deriving DecidableEq, Repr

/-- An entry as the merger and the serializer handle it: `start`, `end` and
`text` (the merger's outputs carry no index; the serializer renumbers). -/
structure MergedEntry where
  start : List Char
  stop : List Char
  text : List Char
deriving DecidableEq, Repr

/-- The merger's accumulating block: `current_block` in the source, with its
cached `char_count`. -/
structure MergeBlock where
  start : List Char
  stop : List Char
  text : List Char
  charCount : Nat
deriving DecidableEq, Repr

/-- The loop of `merge_subtitles` over the entries after the first: returns
the finalized entries flushed so far and the block still open.  When the open
block's `char_count` is below the threshold the entry is folded in (texts
concatenated with no separator, block `end` moved to the entry's `end`);
otherwise the block is flushed — the source emits the flushed entry with
`'end': entry['end']`, the incoming entry's end — and a new block starts
from the incoming entry. -/
def mergeLoop (minChars : Nat) (b : MergeBlock) :
    List MergedEntry → List MergedEntry × MergeBlock
  | [] => ([], b)
  | e :: rest =>
    if b.charCount < minChars then
      mergeLoop minChars
        ⟨b.start, e.stop, b.text ++ e.text, (b.text ++ e.text).length⟩ rest
    else
      let p := mergeLoop minChars ⟨e.start, e.stop, e.text, e.text.length⟩ rest
      (⟨b.start, e.stop, b.text⟩ :: p.1, p.2)

/-- Model of `srt_utils.merge_subtitles`: seed a block from the first entry, run the
loop, then always flush the final open block. -/
def mergeSubtitles (entries : List MergedEntry) (minChars : Nat) :
    List MergedEntry :=
  match entries with
  | [] => []
  | e :: rest =>
    let p := mergeLoop minChars ⟨e.start, e.stop, e.text, e.text.length⟩ rest
    p.1 ++ [⟨p.2.start, p.2.stop, p.2.text⟩]

/-- In-order concatenation of the text fields of a list of entries. -/
def joinTexts (l : List MergedEntry) : List Char :=
  (l.map (fun e => e.text)).flatten

/-! ## The record parser (`srt_utils.parse_srt`)

`parse_srt` runs `finditer` of the fixed pattern

    (\d+)\s*(\d{2}:\d{2}:\d{2},\d{3})\s*-->\s*(\d{2}:\d{2}:\d{2},\d{3})\s*([\s\S]*?)\s*(?=\n\n\d+|\Z)

over the stripped input.  The functions below implement exactly this
pattern's backtracking search, specialized to its atoms.  The `\s*` atoms
before the two timestamps and before `-->` are taken maximal-munch with no
backtracking: a shorter match leaves a whitespace character where the next
atom requires a digit or `-`, so every shorter alternative fails at once and
the overall backtracking result is unchanged.  The `\s*` before the lazy
group is also maximal: its continuation `([\s\S]*?)\s*(?=\n\n\d+|\Z)` can
always succeed (the lazy group may run to the end of input, where `\Z`
holds), so the regex engine commits to the maximal munch. -/

/-- The lookahead `(?=\n\n\d+|\Z)`: two newlines followed by a digit, or
end of input. -/
def lookaheadOk : List Char → Bool
  | [] => true
  | '\n' :: '\n' :: c :: _ => c.isDigit
  | _ => false

/-- The final `\s*(?=\n\n\d+|\Z)`: consume a greedy-longest whitespace run
after which the lookahead holds; the returned list is the rest of the input
at the match's end.  `none` when no prefix of the whitespace run works. -/
def tailMatch : List Char → Option (List Char)
  | [] => some []
  | c :: cs =>
    if pyWs c then
      match tailMatch cs with
      | some r => some r
      | none => if lookaheadOk (c :: cs) then some (c :: cs) else none
    else if lookaheadOk (c :: cs) then some (c :: cs) else none

/-- The lazy group `([\s\S]*?)` followed by `tailMatch`: the shortest group
for which the tail succeeds; returns (group, rest at match end). -/
def lazyText : List Char → Option (List Char × List Char)
  | [] =>
    match tailMatch [] with
    | some r => some ([], r)
    | none => none
  | c :: cs =>
    match tailMatch (c :: cs) with
    | some r => some ([], r)
    | none =>
      match lazyText cs with
      | some p => some (c :: p.1, p.2)
      | none => none

/-- The timestamp atom `\d{2}:\d{2}:\d{2},\d{3}`: twelve characters of the
exact shape, returned with the rest. -/
def matchTimestamp : List Char → Option (List Char × List Char)
  | a :: b :: c :: d :: e :: f :: g :: h :: i :: j :: k :: l :: rest =>
    if a.isDigit && b.isDigit && c = ':' && d.isDigit && e.isDigit && f = ':' &&
        g.isDigit && h.isDigit && i = ',' && j.isDigit && k.isDigit && l.isDigit then
      some ([a, b, c, d, e, f, g, h, i, j, k, l], rest)
    else none
  | _ => none

/-- The literal `-->`. -/
def matchArrow : List Char → Option (List Char)
  | '-' :: '-' :: '>' :: rest => some rest
  | _ => none

/-- The pattern after the index group: `\s*` timestamp `\s*-->\s*` timestamp
`\s*` lazy-text with lookahead.  Returns ((start, end, text), rest). -/
def matchAfterIndex (s : List Char) :
    Option ((List Char × List Char × List Char) × List Char) :=
  match matchTimestamp (s.dropWhile pyWs) with
  | none => none
  | some (ts1, s2) =>
    match matchArrow (s2.dropWhile pyWs) with
    | none => none
    | some s4 =>
      match matchTimestamp (s4.dropWhile pyWs) with
      | none => none
      | some (ts2, s6) =>
        match lazyText (s6.dropWhile pyWs) with
        | none => none
        | some (txt, rest) => some ((ts1, ts2, txt), rest)

/-- Greedy `(\d+)`: try the index group at each length from `k` down to 1
(the caller passes the maximal digit run, which the regex engine prefers),
continuing with `matchAfterIndex` on the rest. -/
def tryIdxLen : Nat → List Char → Option (SrtEntry × List Char)
  | 0, _ => none
  | k + 1, s =>
    match matchAfterIndex (s.drop (k + 1)) with
    | some (g, rest) =>
      some (⟨valNat (s.take (k + 1)), g.1, g.2.1, pyStrip g.2.2⟩, rest)
    | none => tryIdxLen k s

/-- One attempt of the whole pattern anchored at the head of `s`: the entry
(text stripped, index via `int`, as the source builds its dict) and the rest
of the input after the match. -/
def tryMatchAt (s : List Char) : Option (SrtEntry × List Char) :=
  let ds := s.takeWhile (fun c => c.isDigit)
  if ds.isEmpty then none else tryIdxLen ds.length s

/-- Model of `finditer`: scan left to right; on a match, emit it and continue at the
match's end; otherwise advance one character.  A successful match always
consumes at least its index digit, so the input length bounds the number of
steps and serves as fuel (`scanFuel_ge` below makes this exact). -/
def scanFuel : Nat → List Char → List SrtEntry
  | 0, _ => []
  | _, [] => []
  | fuel + 1, c :: cs =>
    match tryMatchAt (c :: cs) with
    | some p => p.1 :: scanFuel fuel p.2
    | none => scanFuel fuel cs

/-- Model of `srt_utils.parse_srt`: strip the input, then scan it for matches of the
block pattern. -/
def parseSrt (s : List Char) : List SrtEntry :=
  scanFuel (pyStrip s).length (pyStrip s)

/-! ## The serializer (`srt_utils.format_srt`) -/

/-- One serialized block: `<i>\n<start> --> <end>\n<text stripped>\n\n`. -/
def srtBlock (i : Nat) (e : MergedEntry) : List Char :=
  natToChars i ++ '\n' :: (e.start ++ ' ' :: '-' :: '-' :: '>' :: ' ' :: e.stop)
    ++ '\n' :: (pyStrip e.text ++ ['\n', '\n'])

/-- The blocks of a list of entries, numbered from `i`. -/
def formatBlocks : List MergedEntry → Nat → List Char
  | [], _ => []
  | e :: rest, i => srtBlock i e ++ formatBlocks rest (i + 1)

/-- Model of `srt_utils.format_srt`: emit every block numbered from 1, strip the
trailing whitespace of the whole output, append one final newline. -/
def formatSrt (es : List MergedEntry) : List Char :=
  pyRstrip (formatBlocks es 1) ++ ['\n']

/-! ## The segment combiner (`audio_processing.combine_srt_files`)

The combiner reads each segment's SRT text, parses it with `parse_srt`,
computes the segment's offset from its first entry's start time, and writes
the shifted surviving entries; the embedding below models the per-segment
state machine on the parsed entry lists (the written block of a `CombEntry`
is `<index>\n<msToSrtTime startMs> --> <msToSrtTime endMs>\n<text>\n\n`). -/

/-- One output entry of the combiner: running index, shifted times in
milliseconds, stripped text. -/
structure CombEntry where
  index : Nat
  startMs : Nat
  endMs : Nat
  text : List Char
deriving DecidableEq, Repr

/-- The entry loop of one segment: shift by `off`, drop entries whose
shifted start is not below their shifted end, number the survivors from
`idx` and track the running maximum emitted end time in `segMax`
(initialized to 0 by the caller, as in the source). -/
def combineLoop (off : Nat) : Nat → Nat → List SrtEntry → List CombEntry × Nat × Nat
  | idx, segMax, [] => ([], idx, segMax)
  | idx, segMax, e :: rest =>
    let ns := srtTimeToMs e.start + off
    let ne := srtTimeToMs e.stop + off
    if ne ≤ ns then combineLoop off idx segMax rest
    else
      let r := combineLoop off (idx + 1) (max segMax ne) rest
      (⟨idx, ns, ne, pyStrip e.text⟩ :: r.1, r.2)

/-- One segment of the combiner: a segment with no parsed entries is
skipped with the state untouched; otherwise the offset is the running
`last_segment_end_time_ms` when the first entry starts below 1000 ms and 0
otherwise, and after the loop `last_segment_end_time_ms` becomes the
segment's maximum emitted end time (which starts from 0). -/
def combineSegment (idx lastEnd : Nat) (es : List SrtEntry) :
    List CombEntry × Nat × Nat :=
  match es with
  | [] => ([], idx, lastEnd)
  | e :: _ =>
    let off := if srtTimeToMs e.start < 1000 then lastEnd else 0
    combineLoop off idx 0 es

/-- The combiner's loop over the segments, in the order given (the source
sorts the file list by segment ordinal before this loop). -/
def combineGo (idx lastEnd : Nat) : List (List SrtEntry) → List CombEntry
  | [] => []
  | seg :: rest =>
    let r := combineSegment idx lastEnd seg
    r.1 ++ combineGo r.2.1 r.2.2 rest

/-- The combiner on a list of per-segment parsed entry lists, ordinal
order, starting with index 1 and `last_segment_end_time_ms = 0`. -/
def combineAll (segs : List (List SrtEntry)) : List CombEntry :=
  combineGo 1 0 segs

/-- The combiner on the segment files' text contents: parse each with
`parse_srt`, then combine. -/
def combineSrtFiles (contents : List (List Char)) : List CombEntry :=
  combineAll (contents.map parseSrt)

/-! ## Canonical-form predicates and the serialized shape (for §8 round-trip) -/

/-- The canonical timestamp text shape `dd:dd:dd,ddd` (exactly two hour
digits, as the parser's pattern requires). -/
def isTsShape : List Char → Bool
  | [a, b, ':', d, e, ':', g, h, ',', j, k, l] =>
    a.isDigit && b.isDigit && d.isDigit && e.isDigit && g.isDigit && h.isDigit &&
    j.isDigit && k.isDigit && l.isDigit
  | _ => false

/-- Whether the text contains two adjacent newline characters (an embedded
blank line, which the block format reserves as separator). -/
def hasBlankPair : List Char → Bool
  | [] => false
  | [_] => false
  | a :: b :: rest => (a = '\n' && b = '\n') || hasBlankPair (b :: rest)

/-- A serialized block without its trailing blank line. -/
def srtBlockCore (i : Nat) (e : MergedEntry) : List Char :=
  natToChars i ++ '\n' :: (e.start ++ ' ' :: '-' :: '-' :: '>' :: ' ' ::
    (e.stop ++ '\n' :: e.text))

/-- The serialized form of a list of entries after the serializer's final
`rstrip`: blocks separated by blank lines, no trailing separator. -/
def trimmedBlocks : List MergedEntry → Nat → List Char
  | [], _ => []
  | [e], i => srtBlockCore i e
  | e :: rest, i => srtBlockCore i e ++ '\n' :: '\n' :: trimmedBlocks rest (i + 1)

/-- The entries the parser recovers from a serialized list: same fields,
indices renumbered from `i`. -/
def parsedOf : List MergedEntry → Nat → List SrtEntry
  | [], _ => []
  | e :: rest, i => ⟨i, e.start, e.stop, e.text⟩ :: parsedOf rest (i + 1)

/-! ## Lemmas: decimal digits and the timestamp codec -/

theorem digitChar_isDigit {d : Nat} (h : d < 10) : (digitChar d).isDigit := by
  interval_cases d <;> decide

theorem digitChar_ne_colon {d : Nat} (h : d < 10) : digitChar d ≠ ':' := by
  interval_cases d <;> decide

theorem digitChar_ne_comma {d : Nat} (h : d < 10) : digitChar d ≠ ',' := by
  interval_cases d <;> decide

theorem digitVal_digitChar {d : Nat} (h : d < 10) : digitVal (digitChar d) = d := by
  interval_cases d <;> decide

theorem natToCharsAux_eq_digits (fuel : Nat) : ∀ (n : Nat) (acc : List Char), n ≤ fuel →
    natToCharsAux fuel n acc = ((Nat.digits 10 n).map digitChar).reverse ++ acc := by
  induction fuel with
  | zero =>
    intro n acc h
    interval_cases n
    simp [natToCharsAux]
  | succ fuel ih =>
    intro n acc h
    by_cases h0 : n = 0
    · subst h0; simp [natToCharsAux]
    · rw [natToCharsAux, if_neg h0]
      rw [ih (n / 10) _ (by omega)]
      rw [Nat.digits_def' (by norm_num : (1 : Nat) < 10) (Nat.pos_of_ne_zero h0)]
      simp [List.reverse_cons, List.append_assoc]

theorem natToChars_eq_digits (n : Nat) :
    natToChars n = if n = 0 then ['0'] else ((Nat.digits 10 n).map digitChar).reverse := by
  unfold natToChars
  split
  · rfl
  · rw [natToCharsAux_eq_digits n n [] (le_refl n), List.append_nil]

theorem natToChars_ne_nil (n : Nat) : natToChars n ≠ [] := by
  rw [natToChars_eq_digits]
  split
  · simp
  · simp [Nat.digits_ne_nil_iff_ne_zero, *]

theorem mem_natToChars_isDigit {n : Nat} {c : Char} (h : c ∈ natToChars n) :
    c.isDigit := by
  rw [natToChars_eq_digits] at h
  split at h
  · rw [List.mem_singleton] at h
    subst h; decide
  · have hm := List.mem_reverse.1 h
    rcases List.mem_map.1 hm with ⟨d, hd, rfl⟩
    exact digitChar_isDigit (Nat.digits_lt_base (by norm_num) hd)

theorem mem_padZero_natToChars_isDigit {w n : Nat} {c : Char}
    (h : c ∈ padZero w (natToChars n)) : c.isDigit := by
  rcases List.mem_append.1 h with h | h
  · rcases List.eq_of_mem_replicate h with rfl
    decide
  · exact mem_natToChars_isDigit h

theorem colon_not_mem_padZero_natToChars (w n : Nat) :
    ':' ∉ padZero w (natToChars n) := by
  intro h
  have := mem_padZero_natToChars_isDigit h
  simp [Char.isDigit] at this

theorem comma_not_mem_padZero_natToChars (w n : Nat) :
    ',' ∉ padZero w (natToChars n) := by
  intro h
  have := mem_padZero_natToChars_isDigit h
  simp [Char.isDigit] at this

theorem foldl_digitVal_rev (ds : List Nat) (hd : ∀ d ∈ ds, d < 10) (a : Nat) :
    List.foldl (fun x c => 10 * x + digitVal c) a ((ds.map digitChar).reverse)
      = a * 10 ^ ds.length + Nat.ofDigits 10 ds := by
  induction ds generalizing a with
  | nil => simp [Nat.ofDigits]
  | cons d ds ih =>
    have hds : ∀ x ∈ ds, x < 10 := fun x hx => hd x (List.mem_cons_of_mem _ hx)
    have h10 : d < 10 := hd d (List.mem_cons_self _ _)
    simp only [List.map_cons, List.reverse_cons, List.foldl_append, List.foldl_cons,
      List.foldl_nil, ih hds a, Nat.ofDigits_cons, List.length_cons,
      digitVal_digitChar h10]
    ring

theorem valNat_natToChars (n : Nat) : valNat (natToChars n) = n := by
  rw [natToChars_eq_digits]
  split
  · subst n; decide
  · have h := foldl_digitVal_rev (Nat.digits 10 n)
      (fun d hd => Nat.digits_lt_base (by norm_num) hd) 0
    simpa [valNat, Nat.ofDigits_digits] using h

theorem valNat_padZero (w : Nat) (l : List Char) :
    valNat (padZero w l) = valNat l := by
  unfold valNat padZero
  rw [List.foldl_append]
  congr 1
  generalize w - l.length = k
  induction k with
  | zero => rfl
  | succ k ih => simpa [List.replicate_succ, digitVal] using ih

theorem parseNat_padZero_natToChars (w n : Nat) :
    parseNat (padZero w (natToChars n)) = some n := by
  unfold parseNat
  rw [if_pos]
  · rw [valNat_padZero, valNat_natToChars]
  · constructor
    · intro e
      exact natToChars_ne_nil n (List.append_eq_nil.mp e).2
    · exact fun c hc => mem_padZero_natToChars_isDigit hc

theorem pySplit_ne_nil (sep : Char) (l : List Char) : pySplit sep l ≠ [] := by
  induction l with
  | nil => simp [pySplit]
  | cons c cs ih =>
    unfold pySplit
    split
    · simp
    · cases h : pySplit sep cs <;> simp

theorem pySplit_not_mem {sep : Char} {l : List Char} (h : sep ∉ l) :
    pySplit sep l = [l] := by
  induction l with
  | nil => rfl
  | cons c cs ih =>
    have hc : ¬(c = sep) := by intro e; subst e; exact h (List.mem_cons_self _ _)
    have hcs : sep ∉ cs := fun e => h (List.mem_cons_of_mem _ e)
    simp only [pySplit, if_neg hc, ih hcs]

theorem pySplit_append {sep : Char} {a : List Char} (r : List Char)
    (h : sep ∉ a) : pySplit sep (a ++ sep :: r) = a :: pySplit sep r := by
  induction a with
  | nil => simp [pySplit]
  | cons c cs ih =>
    have hc : ¬(c = sep) := by intro e; subst e; exact h (List.mem_cons_self _ _)
    have hcs : sep ∉ cs := fun e => h (List.mem_cons_of_mem _ e)
    rw [List.cons_append]
    simp only [pySplit, if_neg hc, ih hcs]

theorem srtTimeToMs_canonical (h m s ms : Nat) :
    srtTimeToMs (padZero 2 (natToChars h) ++ ':' :: (padZero 2 (natToChars m) ++
      ':' :: (padZero 2 (natToChars s) ++ ',' :: padZero 3 (natToChars ms))))
      = h * 3600000 + m * 60000 + s * 1000 + ms := by
  have hCD : ':' ∉ padZero 2 (natToChars s) ++ ',' :: padZero 3 (natToChars ms) := by
    intro hmem
    rcases List.mem_append.1 hmem with hm | hm
    · exact colon_not_mem_padZero_natToChars _ _ hm
    · rcases List.mem_cons.1 hm with h1 | h1
      · cases h1
      · exact colon_not_mem_padZero_natToChars _ _ h1
  unfold srtTimeToMs
  rw [pySplit_append _ (colon_not_mem_padZero_natToChars 2 h),
    pySplit_append _ (colon_not_mem_padZero_natToChars 2 m),
    pySplit_not_mem hCD]
  dsimp only
  rw [pySplit_append _ (comma_not_mem_padZero_natToChars 2 s),
    pySplit_not_mem (comma_not_mem_padZero_natToChars 3 ms)]
  dsimp only
  rw [parseNat_padZero_natToChars, parseNat_padZero_natToChars,
    parseNat_padZero_natToChars, parseNat_padZero_natToChars]

/-- C8: for every non-negative millisecond value below 86,400,000,
decoding the encoded `HH:MM:SS,mmm` form gives the value back. -/
theorem C8_timestamp_round_trip (m : Nat) (h : m < 86400000) :
    srtTimeToMs (msToSrtTime (m : Int)) = m := by
  unfold msToSrtTime
  simp only [Int.toNat_natCast]
  rw [srtTimeToMs_canonical]
  omega

/-- Closed instance of C8 at a concrete input. -/
theorem C8_timestamp_round_trip_witness :
    12345678 < 86400000 ∧ srtTimeToMs (msToSrtTime ((12345678 : Nat) : Int)) = 12345678 :=
  ⟨by norm_num, C8_timestamp_round_trip 12345678 (by norm_num)⟩

/-! ## Lemmas: the merger -/

theorem mergeLoop_joinTexts (minChars : Nat) (rest : List MergedEntry) :
    ∀ b : MergeBlock,
      joinTexts (mergeLoop minChars b rest).1 ++ (mergeLoop minChars b rest).2.text
        = b.text ++ joinTexts rest := by
  induction rest with
  | nil => intro b; simp [mergeLoop, joinTexts]
  | cons e rest ih =>
    intro b
    unfold mergeLoop
    split
    · rw [ih]
      simp [joinTexts, List.append_assoc]
    · simp only [joinTexts, List.map_cons, List.flatten_cons]
      have h1 := ih ⟨e.start, e.stop, e.text, e.text.length⟩
      simp only [joinTexts] at h1
      rw [List.append_assoc, h1]

theorem mergeLoop_length (minChars : Nat) (rest : List MergedEntry) :
    ∀ b : MergeBlock, (mergeLoop minChars b rest).1.length ≤ rest.length := by
  induction rest with
  | nil => intro b; simp [mergeLoop]
  | cons e rest ih =>
    intro b
    unfold mergeLoop
    split
    · exact le_trans (ih _) (Nat.le_succ _)
    · simpa using Nat.succ_le_succ (ih _)

/-- C10: the merger preserves the caption text verbatim — the in-order
concatenation of the output texts equals that of the input texts (texts are
joined with no separator) — and emits at most as many entries as it reads. -/
theorem C10_merge_preserves_text (es : List MergedEntry) (minChars : Nat)
    (h : es ≠ []) :
    joinTexts (mergeSubtitles es minChars) = joinTexts es ∧
      (mergeSubtitles es minChars).length ≤ es.length := by
  match es with
  | [] => exact absurd rfl h
  | e :: rest =>
    constructor
    · show joinTexts ((mergeLoop minChars _ rest).1 ++ [_]) = _
      have h1 := mergeLoop_joinTexts minChars rest ⟨e.start, e.stop, e.text, e.text.length⟩
      simp only [joinTexts, List.map_append, List.flatten_append, List.map_cons,
        List.map_nil, List.flatten_cons, List.flatten_nil, List.append_nil] at h1 ⊢
      exact h1
    · show ((mergeLoop minChars _ rest).1 ++ [_]).length ≤ _
      have h2 := mergeLoop_length minChars rest ⟨e.start, e.stop, e.text, e.text.length⟩
      rw [List.length_append, List.length_cons]
      simpa using Nat.add_le_add_right h2 1

/-- Closed instance of C10 at a concrete input. -/
theorem C10_merge_preserves_text_witness :
    ([⟨"00:00:01,000".toList, "00:00:02,000".toList, "Hi".toList⟩,
      ⟨"00:00:02,000".toList, "00:00:03,000".toList, "there".toList⟩] :
        List MergedEntry) ≠ [] ∧
    (joinTexts (mergeSubtitles
        [⟨"00:00:01,000".toList, "00:00:02,000".toList, "Hi".toList⟩,
         ⟨"00:00:02,000".toList, "00:00:03,000".toList, "there".toList⟩] 45)
      = joinTexts
        [⟨"00:00:01,000".toList, "00:00:02,000".toList, "Hi".toList⟩,
         ⟨"00:00:02,000".toList, "00:00:03,000".toList, "there".toList⟩] ∧
     (mergeSubtitles
        [⟨"00:00:01,000".toList, "00:00:02,000".toList, "Hi".toList⟩,
         ⟨"00:00:02,000".toList, "00:00:03,000".toList, "there".toList⟩] 45).length ≤ 2) :=
  ⟨by decide, C10_merge_preserves_text _ 45 (by decide)⟩

/-- C3 (failing input): when a block of 45 characters is flushed because the
threshold is met, the source emits the flushed entry with the *incoming*
entry's `end` (here `00:00:09,000`), not the accumulated block's own `end`
(`00:00:02,000`). -/
theorem C3_flush_takes_incoming_end :
    mergeSubtitles
      [⟨"00:00:00,000".toList, "00:00:02,000".toList, List.replicate 45 'x'⟩,
       ⟨"00:00:02,500".toList, "00:00:09,000".toList, "y".toList⟩] 45
    = [⟨"00:00:00,000".toList, "00:00:09,000".toList, List.replicate 45 'x'⟩,
       ⟨"00:00:02,500".toList, "00:00:09,000".toList, "y".toList⟩] ∧
    ("00:00:09,000".toList : List Char) ≠ "00:00:02,000".toList := by
  constructor
  · decide
  · decide

/-- C4 (counterexample): with `min_chars = 45` and texts "Hi" (2), "there"
(5) and a 46-character third text, the merger does *not* stop after the
first two — the block "Hithere" has only 7 characters, so the third entry is
folded in as well and a single output block results, not two. -/
theorem C4_merge_threshold_counterexample :
    (mergeSubtitles
      [⟨"00:00:00,000".toList, "00:00:01,000".toList, "Hi".toList⟩,
       ⟨"00:00:01,000".toList, "00:00:02,000".toList, "there".toList⟩,
       ⟨"00:00:02,000".toList, "00:00:03,000".toList, List.replicate 46 'x'⟩] 45).length
    ≠ 2 := by
  decide

/-- C4 (amended): on that input the merger produces exactly one block, all
three texts concatenated in order with no separator, spanning from the first
entry's start to the third entry's end. -/
theorem C4_merge_threshold_amended :
    mergeSubtitles
      [⟨"00:00:00,000".toList, "00:00:01,000".toList, "Hi".toList⟩,
       ⟨"00:00:01,000".toList, "00:00:02,000".toList, "there".toList⟩,
       ⟨"00:00:02,000".toList, "00:00:03,000".toList, List.replicate 46 'x'⟩] 45
    = [⟨"00:00:00,000".toList, "00:00:03,000".toList,
        "Hithere".toList ++ List.replicate 46 'x'⟩] := by
  decide

/-- C5 (failing input): re-merging an already-merged sequence with the same
threshold changes it — the flush writes the incoming entry's `end` into the
flushed block, so every re-merge shifts the flushed blocks' end times. -/
theorem C5_remerge_not_idempotent :
    mergeSubtitles (mergeSubtitles
      [⟨"00:00:00,000".toList, "00:00:01,000".toList, List.replicate 45 'a'⟩,
       ⟨"00:00:01,000".toList, "00:00:02,000".toList, List.replicate 45 'b'⟩,
       ⟨"00:00:02,000".toList, "00:00:03,000".toList, List.replicate 45 'c'⟩] 45) 45
    ≠ mergeSubtitles
      [⟨"00:00:00,000".toList, "00:00:01,000".toList, List.replicate 45 'a'⟩,
       ⟨"00:00:01,000".toList, "00:00:02,000".toList, List.replicate 45 'b'⟩,
       ⟨"00:00:02,000".toList, "00:00:03,000".toList, List.replicate 45 'c'⟩] 45 := by
  decide

/-! ## Lemmas: the combiner -/

theorem combineLoop_out (off : Nat) (es : List SrtEntry) : ∀ idx segMax : Nat,
    (combineLoop off idx segMax es).1.map (fun c => (c.startMs, c.endMs, c.text))
      = (es.filter fun x =>
          srtTimeToMs x.start + off < srtTimeToMs x.stop + off).map
        (fun x => (srtTimeToMs x.start + off, srtTimeToMs x.stop + off, pyStrip x.text)) := by
  induction es with
  | nil => intro idx segMax; simp [combineLoop]
  | cons e rest ih =>
    intro idx segMax
    by_cases h : srtTimeToMs e.stop + off ≤ srtTimeToMs e.start + off
    · have hf : ¬(srtTimeToMs e.start + off < srtTimeToMs e.stop + off) := by omega
      simp only [combineLoop, if_pos h, List.filter_cons]
      rw [if_neg (by simpa using hf)]
      exact ih idx segMax
    · have hf : srtTimeToMs e.start + off < srtTimeToMs e.stop + off := by omega
      simp only [combineLoop, if_neg h, List.filter_cons]
      rw [if_pos (by simpa using hf)]
      simp only [List.map_cons]
      exact congrArg _ (ih (idx + 1) (max segMax (srtTimeToMs e.stop + off)))

theorem combineLoop_segMax (off : Nat) (es : List SrtEntry) : ∀ idx segMax : Nat,
    (combineLoop off idx segMax es).2.2
      = ((es.filter fun x =>
          srtTimeToMs x.start + off < srtTimeToMs x.stop + off).map
        (fun x => srtTimeToMs x.stop + off)).foldl max segMax := by
  induction es with
  | nil => intro idx segMax; simp [combineLoop]
  | cons e rest ih =>
    intro idx segMax
    by_cases h : srtTimeToMs e.stop + off ≤ srtTimeToMs e.start + off
    · have hf : ¬(srtTimeToMs e.start + off < srtTimeToMs e.stop + off) := by omega
      simp only [combineLoop, if_pos h, List.filter_cons]
      rw [if_neg (by simpa using hf)]
      exact ih idx segMax
    · have hf : srtTimeToMs e.start + off < srtTimeToMs e.stop + off := by omega
      simp only [combineLoop, if_neg h, List.filter_cons]
      rw [if_pos (by simpa using hf)]
      simp only [List.map_cons, List.foldl_cons]
      exact ih (idx + 1) (max segMax (srtTimeToMs e.stop + off))

theorem combineLoop_valid (off : Nat) (es : List SrtEntry) : ∀ idx segMax : Nat,
    ∀ c ∈ (combineLoop off idx segMax es).1, c.startMs < c.endMs := by
  induction es with
  | nil => intro idx segMax c hc; simp [combineLoop] at hc
  | cons e rest ih =>
    intro idx segMax c hc
    by_cases h : srtTimeToMs e.stop + off ≤ srtTimeToMs e.start + off
    · rw [combineLoop] at hc
      rw [if_pos h] at hc
      exact ih idx segMax c hc
    · rw [combineLoop] at hc
      rw [if_neg h] at hc
      rcases List.mem_cons.1 hc with h1 | h1
      · subst h1; simpa using Nat.lt_of_not_le h
      · exact ih (idx + 1) _ c h1

/-- C1: a segment whose first parsed entry starts below 1000 ms has every
entry shifted by the running `last_segment_end_time_ms`, and any other
segment is shifted by 0 — and concretely, with the previous segments ending
at 125,000 ms and the next segment's first raw entry starting at 200 ms,
that entry is emitted starting at 125,200 ms. -/
theorem C1_combiner_offset_rule :
    (∀ (idx lastEnd : Nat) (e : SrtEntry) (rest : List SrtEntry),
      (combineSegment idx lastEnd (e :: rest)).1.map
          (fun c => (c.startMs, c.endMs, c.text))
        = ((e :: rest).filter fun x =>
            srtTimeToMs x.start + (if srtTimeToMs e.start < 1000 then lastEnd else 0)
              < srtTimeToMs x.stop + (if srtTimeToMs e.start < 1000 then lastEnd else 0)).map
          (fun x =>
            (srtTimeToMs x.start + (if srtTimeToMs e.start < 1000 then lastEnd else 0),
             srtTimeToMs x.stop + (if srtTimeToMs e.start < 1000 then lastEnd else 0),
             pyStrip x.text))) ∧
    (combineSegment 7 125000
        [⟨1, "00:00:00,200".toList, "00:00:03,000".toList, "hi".toList⟩]).1.map
      (fun c => (c.startMs, c.endMs, c.text))
      = [(125200, 128000, "hi".toList)] := by
  constructor
  · intro idx lastEnd e rest
    show (combineLoop _ idx 0 (e :: rest)).1.map _ = _
    exact combineLoop_out _ (e :: rest) idx 0
  · decide

/-- C2 (counterexample): a segment that parsed one entry whose interval is
invalid (start 5000 ms, end 4000 ms) emits nothing, yet
`last_segment_end_time_ms` does not keep its previous value 125,000 — it is
reset to 0, the loop's initial maximum. -/
theorem C2_lastEnd_counterexample :
    combineSegment 1 125000
        [⟨1, "00:00:05,000".toList, "00:00:04,000".toList, "b".toList⟩]
      = ([], 1, 0) ∧ (0 : Nat) ≠ 125000 := by
  constructor
  · decide
  · decide

/-- C2 (amended): after a segment with at least one parsed entry,
`last_segment_end_time_ms` is the maximum shifted end time over the
surviving entries, starting from 0 — so it is 0, not the previous value,
when every parsed entry is dropped; only a segment with no parsed entries
leaves it unchanged. -/
theorem C2_lastEnd_amended (idx lastEnd : Nat) (es : List SrtEntry) :
    (combineSegment idx lastEnd es).2.2
      = match es with
        | [] => lastEnd
        | e :: _ =>
          ((es.filter fun x =>
              srtTimeToMs x.start + (if srtTimeToMs e.start < 1000 then lastEnd else 0)
                < srtTimeToMs x.stop
                  + (if srtTimeToMs e.start < 1000 then lastEnd else 0)).map
            (fun x => srtTimeToMs x.stop
              + (if srtTimeToMs e.start < 1000 then lastEnd else 0))).foldl max 0 := by
  match es with
  | [] => rfl
  | e :: rest =>
    show (combineLoop _ idx 0 (e :: rest)).2.2 = _
    exact combineLoop_segMax _ (e :: rest) idx 0

theorem combineSegment_valid (idx lastEnd : Nat) (es : List SrtEntry) :
    ∀ c ∈ (combineSegment idx lastEnd es).1, c.startMs < c.endMs := by
  match es with
  | [] => intro c hc; simp [combineSegment] at hc
  | e :: rest =>
    intro c hc
    exact combineLoop_valid _ (e :: rest) idx 0 c hc

theorem combineGo_valid (segs : List (List SrtEntry)) : ∀ idx lastEnd : Nat,
    ∀ c ∈ combineGo idx lastEnd segs, c.startMs < c.endMs := by
  induction segs with
  | nil => intro idx lastEnd c hc; simp [combineGo] at hc
  | cons seg rest ih =>
    intro idx lastEnd c hc
    simp only [combineGo] at hc
    rcases List.mem_append.1 hc with h1 | h1
    · exact combineSegment_valid idx lastEnd seg c h1
    · exact ih _ _ c h1

/-- C6 (counterexample): an entry with start 5000 ms and end 4000 ms *is*
present in the parser's output and in the merger's output — neither stage
checks intervals; only the combiner drops such entries. -/
theorem C6_invalid_interval_counterexample :
    parseSrt ("1\n00:00:05,000 --> 00:00:04,000\nhello\n").toList
      = [⟨1, "00:00:05,000".toList, "00:00:04,000".toList, "hello".toList⟩] ∧
    mergeSubtitles
        [⟨"00:00:05,000".toList, "00:00:04,000".toList, "hello".toList⟩] 45
      = [⟨"00:00:05,000".toList, "00:00:04,000".toList, "hello".toList⟩] ∧
    srtTimeToMs ("00:00:05,000".toList) = 5000 ∧
    srtTimeToMs ("00:00:04,000".toList) = 4000 := by
  refine ⟨by decide, by decide, by decide, by decide⟩

/-- C6 (amended): the combiner never emits an entry whose shifted start is
not strictly below its shifted end; the parser and the merger propagate
invalid intervals unchanged. -/
theorem C6_combiner_drops_invalid (segs : List (List SrtEntry)) :
    ∀ c ∈ combineAll segs, c.startMs < c.endMs :=
  combineGo_valid segs 1 0

/-- Closed instance of C6's combiner guarantee at a concrete input. -/
theorem C6_combiner_drops_invalid_witness :
    (⟨1, 200, 3000, "hi".toList⟩ : CombEntry).startMs
      < (⟨1, 200, 3000, "hi".toList⟩ : CombEntry).endMs :=
  C6_combiner_drops_invalid
    [[⟨1, "00:00:00,200".toList, "00:00:03,000".toList, "hi".toList⟩]]
    ⟨1, 200, 3000, "hi".toList⟩ (by decide)

theorem foldl_max_init_le (l : List Nat) : ∀ a b : Nat, a ≤ b →
    l.foldl max a ≤ l.foldl max b := by
  induction l with
  | nil => intro a b h; simpa using h
  | cons x l ih =>
    intro a b h
    simp only [List.foldl_cons]
    exact ih _ _ (by omega)

theorem le_foldl_max_init (l : List Nat) : ∀ b : Nat, b ≤ l.foldl max b := by
  induction l with
  | nil => intro b; simp
  | cons x l ih =>
    intro b
    simp only [List.foldl_cons]
    exact le_trans (Nat.le_max_left b x) (ih (max b x))

theorem mem_le_foldl_max (l : List Nat) : ∀ b : Nat, ∀ a ∈ l, a ≤ l.foldl max b := by
  induction l with
  | nil => intro b a ha; simp at ha
  | cons x l ih =>
    intro b a ha
    rcases List.mem_cons.1 ha with h1 | h1
    · subst h1
      simp only [List.foldl_cons]
      exact le_trans (Nat.le_max_right b a) (le_foldl_max_init l (max b a))
    · exact ih (max b x) a h1

/-- C7 (counterexample): the combiner's output starts are not non-decreasing
for every input — a segment whose first entry starts at or above 1000 ms is
emitted unshifted (offset 0) and can fall before the previous segment's
entries. -/
theorem C7_monotonicity_counterexample :
    ¬ List.Chain' (fun a b : CombEntry => a.startMs ≤ b.startMs)
      (combineAll
        [[⟨1, "00:00:00,000".toList, "00:00:01,000".toList, "x".toList⟩,
          ⟨2, "00:00:02,000".toList, "00:02:05,000".toList, "y".toList⟩],
         [⟨1, "00:00:01,200".toList, "00:00:01,300".toList, "z".toList⟩]]) := by
  intro h
  have h1 : combineAll
        [[⟨1, "00:00:00,000".toList, "00:00:01,000".toList, "x".toList⟩,
          ⟨2, "00:00:02,000".toList, "00:02:05,000".toList, "y".toList⟩],
         [⟨1, "00:00:01,200".toList, "00:00:01,300".toList, "z".toList⟩]]
      = [⟨1, 0, 1000, "x".toList⟩, ⟨2, 2000, 125000, "y".toList⟩,
         ⟨3, 1200, 1300, "z".toList⟩] := by decide
  rw [h1] at h
  simp [List.chain'_cons] at h

theorem combineGo_mono (segs : List (List SrtEntry)) : ∀ idx lastEnd : Nat,
    (∀ seg ∈ segs,
      seg.Pairwise (fun a b => srtTimeToMs a.start ≤ srtTimeToMs b.start) ∧
      (∀ x ∈ seg, srtTimeToMs x.start < srtTimeToMs x.stop) ∧
      (∀ x, seg.head? = some x → srtTimeToMs x.start < 1000)) →
    (combineGo idx lastEnd segs).Pairwise (fun a b => a.startMs ≤ b.startMs) ∧
      ∀ c ∈ combineGo idx lastEnd segs, lastEnd ≤ c.startMs := by
  induction segs with
  | nil => intro idx lastEnd _; simp [combineGo]
  | cons seg rest ih =>
    intro idx lastEnd hH
    have hrest := fun s hs => hH s (List.mem_cons_of_mem _ hs)
    obtain ⟨hsort, hvalid, hreset⟩ := hH seg (List.mem_cons_self _ _)
    match hseg : seg with
    | [] =>
      simpa [combineGo, combineSegment] using ih idx lastEnd hrest
    | e :: tl =>
      have hoff : (if srtTimeToMs e.start < 1000 then lastEnd else 0) = lastEnd :=
        if_pos (hreset e rfl)
    -- the segment's filter keeps every entry: start < stop is preserved by the shift
      have hkeep : ∀ x ∈ e :: tl,
          (decide (srtTimeToMs x.start + lastEnd < srtTimeToMs x.stop + lastEnd)) = true := by
        intro x hx
        have := hvalid x hx
        simp only [decide_eq_true_eq]
        omega
      have hfilter :
          ((e :: tl).filter fun x =>
            srtTimeToMs x.start + lastEnd < srtTimeToMs x.stop + lastEnd) = e :: tl :=
        List.filter_eq_self.2 hkeep
      have hout := combineLoop_out lastEnd (e :: tl) idx 0
      rw [hfilter] at hout
      have hmax := combineLoop_segMax lastEnd (e :: tl) idx 0
      rw [hfilter] at hmax
      -- names for the segment's output, next index and next running end time
      set O := (combineLoop lastEnd idx 0 (e :: tl)).1 with hO
      set idx2 := (combineLoop lastEnd idx 0 (e :: tl)).2.1 with hidx2
      set lastEnd2 := (combineLoop lastEnd idx 0 (e :: tl)).2.2 with hlastEnd2
      have hgo : combineGo idx lastEnd ((e :: tl) :: rest)
          = O ++ combineGo idx2 lastEnd2 rest := by
        simp only [combineGo, combineSegment, hoff]
      have hstarts : O.map (fun c => c.startMs)
          = (e :: tl).map (fun x => srtTimeToMs x.start + lastEnd) := by
        have := congrArg (List.map Prod.fst) hout
        simpa [List.map_map, Function.comp] using this
      have hends : O.map (fun c => c.endMs)
          = (e :: tl).map (fun x => srtTimeToMs x.stop + lastEnd) := by
        have := congrArg (List.map (fun p => p.2.1)) hout
        simpa [List.map_map, Function.comp] using this
      have hlow : ∀ c ∈ O, lastEnd ≤ c.startMs := by
        intro c hc
        have : c.startMs ∈ O.map (fun c => c.startMs) := List.mem_map_of_mem _ hc
        rw [hstarts] at this
        rcases List.mem_map.1 this with ⟨x, _, hx⟩
        omega
      have hhigh : ∀ c ∈ O, c.startMs ≤ lastEnd2 := by
        intro c hc
        have hlt := combineLoop_valid lastEnd (e :: tl) idx 0 c hc
        have hmem : c.endMs ∈ O.map (fun c => c.endMs) := List.mem_map_of_mem _ hc
        rw [hends] at hmem
        have hle : c.endMs ≤ lastEnd2 := by
          rw [hmax]
          exact mem_le_foldl_max _ 0 c.endMs hmem
        omega
      have hstep : lastEnd ≤ lastEnd2 := by
        have hmem : srtTimeToMs e.stop + lastEnd
            ∈ (e :: tl).map (fun x => srtTimeToMs x.stop + lastEnd) := by
          simp
        have := mem_le_foldl_max _ 0 _ hmem
        rw [hmax]
        omega
      have hOsorted : O.Pairwise (fun a b => a.startMs ≤ b.startMs) := by
        rw [← List.pairwise_map (f := fun c : CombEntry => c.startMs) (R := (· ≤ ·)),
          hstarts, List.pairwise_map]
        exact hsort.imp (by intro a b h; omega)
      obtain ⟨hrecsorted, hreclow⟩ := ih idx2 lastEnd2 hrest
      constructor
      · rw [hgo]
        rw [List.pairwise_append]
        refine ⟨hOsorted, hrecsorted, ?_⟩
        intro a ha b hb
        exact le_trans (hhigh a ha) (hreclow b hb)
      · rw [hgo]
        intro c hc
        rcases List.mem_append.1 hc with h1 | h1
        · exact hlow c h1
        · exact le_trans hstep (hreclow c h1)

/-- C7 (amended): the combiner's output has non-decreasing start times
provided each segment's parsed entries are themselves in non-decreasing
start order with valid intervals, and every non-empty segment triggers the
reset heuristic (its first entry starts below 1000 ms); a segment emitted
with offset 0 can otherwise precede earlier output. -/
theorem C7_monotonicity_amended (segs : List (List SrtEntry))
    (h : ∀ seg ∈ segs,
      seg.Pairwise (fun a b => srtTimeToMs a.start ≤ srtTimeToMs b.start) ∧
      (∀ x ∈ seg, srtTimeToMs x.start < srtTimeToMs x.stop) ∧
      (∀ x, seg.head? = some x → srtTimeToMs x.start < 1000)) :
    List.Chain' (fun a b : CombEntry => a.startMs ≤ b.startMs) (combineAll segs) :=
  ((combineGo_mono segs 1 0 h).1).chain'

/-- Closed instance of C7's amended statement at a concrete input. -/
theorem C7_monotonicity_amended_witness :
    List.Chain' (fun a b : CombEntry => a.startMs ≤ b.startMs)
      (combineAll
        [[⟨1, "00:00:00,100".toList, "00:00:05,000".toList, "a".toList⟩],
         [⟨1, "00:00:00,200".toList, "00:00:00,300".toList, "b".toList⟩]]) :=
  C7_monotonicity_amended
    [[⟨1, "00:00:00,100".toList, "00:00:05,000".toList, "a".toList⟩],
     [⟨1, "00:00:00,200".toList, "00:00:00,300".toList, "b".toList⟩]]
    (by decide)


/-- C9 (counterexample): an entry with three-digit hours (`100:00:00,000`),
which satisfies the §3 data model ("hours unbounded but at least 2 digits",
start < end, non-empty single-line text), does not survive the round trip:
the parser's pattern requires exactly two hour digits, so the serialized
text yields no entries at all. -/
theorem C9_round_trip_counterexample :
    (parseSrt (formatSrt
        [⟨"100:00:00,000".toList, "100:00:01,000".toList, "a".toList⟩])).map
        (fun x => (x.start, x.stop, x.text))
      ≠ [("100:00:00,000".toList, "100:00:01,000".toList, "a".toList)] := by
  decide

/-! ## Lemmas: character classes -/

theorem pyWs_true_elim {c : Char} (h : pyWs c = true) :
    c = ' ' ∨ c = '\t' ∨ c = '\n' ∨ c = '\r' ∨ c = '\x0b' ∨ c = '\x0c' := by
  have h2 := h
  simp only [pyWs, Bool.or_eq_true, decide_eq_true_eq] at h2
  tauto

theorem pyWs_false_of_digit {c : Char} (h : c.isDigit = true) : pyWs c = false := by
  cases hw : pyWs c
  · rfl
  · exfalso
    rcases pyWs_true_elim hw with rfl | rfl | rfl | rfl | rfl | rfl <;>
      exact absurd h (by decide)

theorem ne_newline_of_not_ws {c : Char} (h : pyWs c = false) : c ≠ '\n' := by
  rintro rfl
  exact absurd h (by decide)

theorem lookaheadOk_cons_eq_false {c : Char} (r : List Char) (h : c ≠ '\n') :
    lookaheadOk (c :: r) = false := by
  unfold lookaheadOk
  split
  · rename_i heq
    cases heq
  · rename_i heq
    injection heq with h1 _
    exact absurd h1 h
  · rfl

/-! ## Lemmas: timestamp shape and stripping -/

theorem isTsShape_elim {l : List Char} (h : isTsShape l = true) :
    ∃ a b d e g h2 j k m : Char,
      l = [a, b, ':', d, e, ':', g, h2, ',', j, k, m] ∧
      a.isDigit = true ∧ b.isDigit = true ∧ d.isDigit = true ∧ e.isDigit = true ∧
      g.isDigit = true ∧ h2.isDigit = true ∧ j.isDigit = true ∧ k.isDigit = true ∧
      m.isDigit = true := by
  unfold isTsShape at h
  split at h
  · rename_i a b d e g h2 j k m
    simp only [Bool.and_eq_true] at h
    exact ⟨a, b, d, e, g, h2, j, k, m, rfl,
      h.1.1.1.1.1.1.1.1, h.1.1.1.1.1.1.1.2, h.1.1.1.1.1.1.2, h.1.1.1.1.1.2,
      h.1.1.1.1.2, h.1.1.1.2, h.1.1.2, h.1.2, h.2⟩
  · cases h

theorem matchTimestamp_shape {l : List Char} (r : List Char)
    (h : isTsShape l = true) : matchTimestamp (l ++ r) = some (l, r) := by
  obtain ⟨a, b, d, e, g, h2, j, k, m, rfl, ha, hb, hd, he, hg, hh, hj, hk, hm⟩ :=
    isTsShape_elim h
  simp only [List.cons_append, List.nil_append, matchTimestamp]
  rw [if_pos]
  simp [ha, hb, hd, he, hg, hh, hj, hk, hm]

theorem isTsShape_head {l : List Char} (h : isTsShape l = true) :
    ∃ c cs, l = c :: cs ∧ c.isDigit = true := by
  obtain ⟨a, b, d, e, g, h2, j, k, m, rfl, ha, _⟩ := isTsShape_elim h
  exact ⟨a, _, rfl, ha⟩

theorem length_pyRstrip_le (x : List Char) : (pyRstrip x).length ≤ x.length := by
  unfold pyRstrip
  calc (x.reverse.dropWhile pyWs).reverse.length
      = (x.reverse.dropWhile pyWs).length := List.length_reverse _
    _ ≤ x.reverse.length := (List.dropWhile_sublist pyWs).length_le
    _ = x.length := List.length_reverse _

theorem dropWhile_eq_self_of_head {T : List Char} {p : Char → Bool}
    (h : ∀ c, T.head? = some c → p c = false) : T.dropWhile p = T := by
  cases T with
  | nil => rfl
  | cons c cs => rw [List.dropWhile_cons, h c rfl]; simp

theorem pyRstrip_eq_self {x : List Char}
    (h : ∀ c, x.getLast? = some c → pyWs c = false) : pyRstrip x = x := by
  unfold pyRstrip
  cases hx : x.reverse with
  | nil =>
    have : x = [] := by simpa using congrArg List.reverse hx
    simp [this]
  | cons c r =>
    have hc : x.getLast? = some c := by rw [← List.head?_reverse, hx]; rfl
    rw [List.dropWhile_cons, h c hc]
    simp only [Bool.false_eq_true, if_false]
    rw [← hx, List.reverse_reverse]

theorem pyRstrip_append_ws {x : List Char} {c : Char} (h : pyWs c = true) :
    pyRstrip (x ++ [c]) = pyRstrip x := by
  unfold pyRstrip
  rw [List.reverse_append]
  simp [List.dropWhile_cons, h]

theorem pyRstrip_append_of_ne_nil {A B : List Char} (h : pyRstrip B ≠ []) :
    pyRstrip (A ++ B) = A ++ pyRstrip B := by
  unfold pyRstrip at h ⊢
  rw [List.reverse_append, List.dropWhile_append]
  split
  · rename_i hemp
    exfalso
    apply h
    rw [List.isEmpty_iff] at hemp
    simp [hemp]
  · simp

theorem dropWhile_pyStrip_eq {T : List Char} (hT : pyStrip T = T) :
    T.dropWhile pyWs = T := by
  have hsub : (T.dropWhile pyWs).Sublist T := List.dropWhile_sublist pyWs
  apply hsub.eq_of_length
  have h1 : (pyStrip T).length ≤ (T.dropWhile pyWs).length := length_pyRstrip_le _
  have h2 : (T.dropWhile pyWs).length ≤ T.length := hsub.length_le
  rw [hT] at h1
  omega

theorem pyRstrip_pyStrip_eq {T : List Char} (hT : pyStrip T = T) :
    pyRstrip T = T := by
  have h1 := dropWhile_pyStrip_eq hT
  unfold pyStrip at hT
  rw [h1] at hT
  exact hT

theorem head_not_ws_of_pyStrip_eq {T : List Char} (hT : pyStrip T = T) :
    ∀ c, T.head? = some c → pyWs c = false := by
  intro c hc
  have h1 := dropWhile_pyStrip_eq hT
  cases T with
  | nil => cases hc
  | cons a cs =>
    injection hc with hc
    subst hc
    rw [List.dropWhile_cons] at h1
    by_contra hw
    rw [eq_true_of_ne_false hw] at h1
    simp only [if_true] at h1
    have := congrArg List.length h1
    have h2 : (cs.dropWhile pyWs).length ≤ cs.length :=
      (List.dropWhile_sublist pyWs).length_le
    simp at this
    omega

theorem last_not_ws_of_pyStrip_eq {T : List Char} (hT : pyStrip T = T) :
    ∀ c, T.getLast? = some c → pyWs c = false := by
  intro c hc
  have h1 := pyRstrip_pyStrip_eq hT
  unfold pyRstrip at h1
  have h2 : T.reverse.dropWhile pyWs = T.reverse := by
    have := congrArg List.reverse h1
    rwa [List.reverse_reverse] at this
  rw [← List.head?_reverse] at hc
  cases hr : T.reverse with
  | nil => rw [hr] at hc; cases hc
  | cons a rs =>
    rw [hr] at hc h2
    injection hc with hc
    subst hc
    rw [List.dropWhile_cons] at h2
    by_contra hw
    rw [eq_true_of_ne_false hw] at h2
    simp only [if_true] at h2
    have := congrArg List.length h2
    have h3 : (rs.dropWhile pyWs).length ≤ rs.length :=
      (List.dropWhile_sublist pyWs).length_le
    simp at this
    omega

theorem lookaheadOk_cons_cons {c d : Char} {r : List Char}
    (h : lookaheadOk (c :: d :: r) = true) : c = '\n' ∧ d = '\n' := by
  unfold lookaheadOk at h
  split at h
  · rename_i heq
    cases heq
  · rename_i heq
    injection heq with h1 h2
    injection h2 with h2 _
    exact ⟨h1, h2⟩
  · cases h

theorem hasBlankPair_cons_elim {c d : Char} {cs : List Char}
    (h : hasBlankPair (c :: d :: cs) = false) :
    ¬(c = '\n' ∧ d = '\n') ∧ hasBlankPair (d :: cs) = false := by
  unfold hasBlankPair at h
  simp only [Bool.or_eq_false_iff, Bool.and_eq_false_iff] at h
  refine ⟨?_, h.2⟩
  rintro ⟨rfl, rfl⟩
  rcases h.1 with h1 | h1 <;> simp at h1

theorem tailMatch_inside {T : List Char} (Q : List Char)
    (hlast : ∀ c, T.getLast? = some c → pyWs c = false)
    (hblank : hasBlankPair T = false) :
    T ≠ [] → tailMatch (T ++ Q) = none := by
  induction T with
  | nil => intro h; exact absurd rfl h
  | cons c cs ih =>
    intro _
    cases cs with
    | nil =>
      have hc : pyWs c = false := hlast c rfl
      simp only [List.cons_append, List.nil_append]
      rw [tailMatch, hc]
      simp only [Bool.false_eq_true, if_false]
      rw [lookaheadOk_cons_eq_false _ (ne_newline_of_not_ws hc)]
      simp
    | cons d cs' =>
      have hlast' : ∀ x, (d :: cs').getLast? = some x → pyWs x = false := by
        intro x hx
        apply hlast
        rw [List.getLast?_cons_cons]
        exact hx
      obtain ⟨hnd, hblank'⟩ := hasBlankPair_cons_elim hblank
      have ihr := ih hlast' hblank' (by simp)
      have hlook : lookaheadOk (c :: (d :: cs') ++ Q) = false := by
        cases hl : lookaheadOk (c :: (d :: cs') ++ Q)
        · rfl
        · obtain ⟨h1, h2⟩ := lookaheadOk_cons_cons hl
          exact absurd ⟨h1, h2⟩ hnd
      simp only [List.cons_append] at hlook ⊢
      rw [tailMatch]
      by_cases hw : pyWs c
      · rw [hw]
        simp only [if_true]
        rw [show (d :: cs') ++ Q = d :: (cs' ++ Q) from rfl] at ihr
        rw [ihr, hlook]
        simp
      · rw [eq_false_of_ne_true hw]
        simp only [Bool.false_eq_true, if_false]
        rw [hlook]
        simp

theorem tailMatch_boundary (Q : List Char)
    (hQ : Q = [] ∨ ∃ d R, Q = '\n' :: '\n' :: d :: R ∧ d.isDigit = true) :
    tailMatch Q = some Q := by
  rcases hQ with rfl | ⟨d, R, rfl, hd⟩
  · rfl
  · have hdw : pyWs d = false := pyWs_false_of_digit hd
    have h1 : tailMatch (d :: R) = none := by
      rw [tailMatch, hdw]
      simp only [Bool.false_eq_true, if_false]
      rw [lookaheadOk_cons_eq_false _ (ne_newline_of_not_ws hdw)]
      simp
    have h2 : tailMatch ('\n' :: d :: R) = none := by
      rw [tailMatch]
      rw [show pyWs '\n' = true from by decide]
      simp only [if_true]
      rw [h1]
      have hl : lookaheadOk ('\n' :: d :: R) = false := by
        cases hl : lookaheadOk ('\n' :: d :: R)
        · rfl
        · obtain ⟨_, h3⟩ := lookaheadOk_cons_cons hl
          exact absurd h3 (ne_newline_of_not_ws hdw)
      rw [hl]
      simp
    rw [tailMatch]
    rw [show pyWs '\n' = true from by decide]
    simp only [if_true]
    rw [h2]
    have hl : lookaheadOk ('\n' :: '\n' :: d :: R) = true := by
      simpa [lookaheadOk] using hd
    rw [hl]
    simp

theorem lazyText_block {T : List Char} (Q : List Char)
    (hlast : ∀ c, T.getLast? = some c → pyWs c = false)
    (hblank : hasBlankPair T = false)
    (hQ : Q = [] ∨ ∃ d R, Q = '\n' :: '\n' :: d :: R ∧ d.isDigit = true) :
    lazyText (T ++ Q) = some (T, Q) := by
  induction T with
  | nil =>
    simp only [List.nil_append]
    cases hq : Q with
    | nil => rfl
    | cons c cs =>
      rw [lazyText]
      rw [← hq, tailMatch_boundary Q hQ]
  | cons c cs ih =>
    have hlast' : ∀ x, cs.getLast? = some x → pyWs x = false := by
      intro x hx
      apply hlast
      cases cs with
      | nil => cases hx
      | cons d cs' => rw [List.getLast?_cons_cons]; exact hx
    have hblank' : hasBlankPair cs = false := by
      cases cs with
      | nil => rfl
      | cons d cs' => exact (hasBlankPair_cons_elim hblank).2
    have ihr := ih hlast' hblank'
    have hnone : tailMatch ((c :: cs) ++ Q) = none :=
      tailMatch_inside Q hlast hblank (by simp)
    simp only [List.cons_append] at hnone ⊢
    rw [lazyText, hnone, ihr]

theorem dropWhile_ws_head_cons {x : Char} {r : List Char} (h : pyWs x = false) :
    (x :: r).dropWhile pyWs = x :: r := by
  rw [List.dropWhile_cons, h]
  simp

theorem takeWhile_all_stop {A : List Char} {c : Char} (r : List Char)
    {p : Char → Bool} (hA : ∀ a ∈ A, p a = true) (hc : p c = false) :
    (A ++ c :: r).takeWhile p = A := by
  induction A with
  | nil => simp [List.takeWhile_cons, hc]
  | cons a as ih =>
    rw [List.cons_append, List.takeWhile_cons, hA a (List.mem_cons_self _ _)]
    simp only [if_true]
    rw [ih (fun x hx => hA x (List.mem_cons_of_mem _ hx))]

theorem matchAfterIndex_block (e : MergedEntry) (Q : List Char)
    (hts1 : isTsShape e.start = true) (hts2 : isTsShape e.stop = true)
    (htne : e.text ≠ []) (htstrip : pyStrip e.text = e.text)
    (htblank : hasBlankPair e.text = false)
    (hQ : Q = [] ∨ ∃ d R, Q = '\n' :: '\n' :: d :: R ∧ d.isDigit = true) :
    matchAfterIndex ('\n' :: (e.start ++ ' ' :: '-' :: '-' :: '>' :: ' ' ::
        (e.stop ++ '\n' :: (e.text ++ Q))))
      = some ((e.start, e.stop, e.text), Q) := by
  obtain ⟨s0, srest, hs, hs0⟩ := isTsShape_head hts1
  obtain ⟨p0, prest, hp, hp0⟩ := isTsShape_head hts2
  obtain ⟨t0, trest, ht⟩ := List.exists_cons_of_ne_nil htne
  have hthead : pyWs t0 = false := by
    apply head_not_ws_of_pyStrip_eq htstrip
    rw [ht]; rfl
  have htlast := last_not_ws_of_pyStrip_eq htstrip
  unfold matchAfterIndex
  rw [show (('\n' :: (e.start ++ ' ' :: '-' :: '-' :: '>' :: ' ' ::
      (e.stop ++ '\n' :: (e.text ++ Q)))).dropWhile pyWs)
      = e.start ++ ' ' :: '-' :: '-' :: '>' :: ' ' ::
        (e.stop ++ '\n' :: (e.text ++ Q)) from by
    rw [List.dropWhile_cons]
    rw [show pyWs '\n' = true from by decide]
    simp only [if_true]
    rw [hs, List.cons_append]
    exact dropWhile_ws_head_cons (pyWs_false_of_digit hs0)]
  rw [matchTimestamp_shape _ hts1]
  dsimp only
  rw [show ((' ' :: '-' :: '-' :: '>' :: ' ' ::
      (e.stop ++ '\n' :: (e.text ++ Q))).dropWhile pyWs)
      = '-' :: '-' :: '>' :: ' ' :: (e.stop ++ '\n' :: (e.text ++ Q)) from by
    rw [List.dropWhile_cons]
    rw [show pyWs ' ' = true from by decide]
    simp only [if_true]
    exact dropWhile_ws_head_cons (by decide)]
  rw [show matchArrow ('-' :: '-' :: '>' :: ' ' ::
      (e.stop ++ '\n' :: (e.text ++ Q)))
      = some (' ' :: (e.stop ++ '\n' :: (e.text ++ Q))) from rfl]
  dsimp only
  rw [show ((' ' :: (e.stop ++ '\n' :: (e.text ++ Q))).dropWhile pyWs)
      = e.stop ++ '\n' :: (e.text ++ Q) from by
    rw [List.dropWhile_cons]
    rw [show pyWs ' ' = true from by decide]
    simp only [if_true]
    rw [hp, List.cons_append]
    exact dropWhile_ws_head_cons (pyWs_false_of_digit hp0)]
  rw [matchTimestamp_shape _ hts2]
  dsimp only
  rw [show (('\n' :: (e.text ++ Q)).dropWhile pyWs) = e.text ++ Q from by
    rw [List.dropWhile_cons]
    rw [show pyWs '\n' = true from by decide]
    simp only [if_true]
    rw [ht, List.cons_append]
    exact dropWhile_ws_head_cons hthead]
  rw [lazyText_block Q htlast htblank hQ]

theorem tryMatchAt_block (i : Nat) (e : MergedEntry) (Q : List Char)
    (hts1 : isTsShape e.start = true) (hts2 : isTsShape e.stop = true)
    (htne : e.text ≠ []) (htstrip : pyStrip e.text = e.text)
    (htblank : hasBlankPair e.text = false)
    (hQ : Q = [] ∨ ∃ d R, Q = '\n' :: '\n' :: d :: R ∧ d.isDigit = true) :
    tryMatchAt (srtBlockCore i e ++ Q)
      = some (⟨i, e.start, e.stop, e.text⟩, Q) := by
  have hshape : srtBlockCore i e ++ Q
      = natToChars i ++ ('\n' :: (e.start ++ ' ' :: '-' :: '-' :: '>' :: ' ' ::
        (e.stop ++ '\n' :: (e.text ++ Q)))) := by
    unfold srtBlockCore
    simp [List.append_assoc, List.cons_append]
  have hds : (srtBlockCore i e ++ Q).takeWhile (fun c => c.isDigit)
      = natToChars i := by
    rw [hshape]
    exact takeWhile_all_stop _ (fun a ha => mem_natToChars_isDigit ha) (by decide)
  obtain ⟨c0, cs0, hnc⟩ := List.exists_cons_of_ne_nil (natToChars_ne_nil i)
  unfold tryMatchAt
  rw [hds]
  dsimp only
  rw [show (natToChars i).isEmpty = false from by
    rw [hnc]; rfl]
  simp only [Bool.false_eq_true, if_false]
  rw [show (natToChars i).length = cs0.length + 1 from by rw [hnc]; rfl]
  rw [tryIdxLen]
  rw [show (srtBlockCore i e ++ Q).drop (cs0.length + 1)
      = '\n' :: (e.start ++ ' ' :: '-' :: '-' :: '>' :: ' ' ::
        (e.stop ++ '\n' :: (e.text ++ Q))) from by
    rw [hshape]
    rw [show cs0.length + 1 = (natToChars i).length from by rw [hnc]; rfl]
    exact List.drop_left _ _]
  rw [matchAfterIndex_block e Q hts1 hts2 htne htstrip htblank hQ]
  dsimp only
  rw [show (srtBlockCore i e ++ Q).take (cs0.length + 1) = natToChars i from by
    rw [hshape]
    rw [show cs0.length + 1 = (natToChars i).length from by rw [hnc]; rfl]
    exact List.take_left _ _]
  rw [valNat_natToChars, htstrip]

theorem srtBlock_eq_core (i : Nat) (e : MergedEntry)
    (h : pyStrip e.text = e.text) :
    srtBlock i e = srtBlockCore i e ++ ['\n', '\n'] := by
  unfold srtBlock srtBlockCore
  rw [h]
  simp [List.append_assoc, List.cons_append]

theorem trimmedBlocks_ne_nil {es : List MergedEntry} (h : es ≠ []) (i : Nat) :
    trimmedBlocks es i ≠ [] := by
  match es with
  | [e] =>
    unfold trimmedBlocks srtBlockCore
    intro he
    exact natToChars_ne_nil i (List.append_eq_nil.mp he).1
  | e :: e2 :: rest =>
    unfold trimmedBlocks srtBlockCore
    intro he
    exact natToChars_ne_nil i (List.append_eq_nil.mp (List.append_eq_nil.mp he).1).1

theorem trimmedBlocks_head_digit {es : List MergedEntry} (h : es ≠ []) (i : Nat) :
    ∃ c r, trimmedBlocks es i = c :: r ∧ c.isDigit = true := by
  obtain ⟨c0, cs0, hnc⟩ := List.exists_cons_of_ne_nil (natToChars_ne_nil i)
  have hc0 : c0.isDigit = true := mem_natToChars_isDigit (by rw [hnc]; simp)
  match es with
  | [e] =>
    refine ⟨c0, cs0 ++ ('\n' :: (e.start ++ ' ' :: '-' :: '-' :: '>' :: ' ' ::
      (e.stop ++ '\n' :: e.text))), ?_, hc0⟩
    unfold trimmedBlocks srtBlockCore
    rw [hnc]
    simp
  | e :: e2 :: rest =>
    refine ⟨c0, cs0 ++ ('\n' :: (e.start ++ ' ' :: '-' :: '-' :: '>' :: ' ' ::
      (e.stop ++ '\n' :: e.text))) ++ '\n' :: '\n' :: trimmedBlocks (e2 :: rest) (i + 1),
      ?_, hc0⟩
    rw [show trimmedBlocks (e :: e2 :: rest) i
        = srtBlockCore i e ++ '\n' :: '\n' :: trimmedBlocks (e2 :: rest) (i + 1)
        from rfl]
    unfold srtBlockCore
    rw [hnc]
    simp [List.append_assoc]

theorem getLast?_cons_ne_nil {c : Char} {l : List Char} (h : l ≠ []) :
    (c :: l).getLast? = l.getLast? := by
  cases l with
  | nil => exact absurd rfl h
  | cons a as => exact List.getLast?_cons_cons

theorem getLast?_core (i : Nat) (e : MergedEntry) (htne : e.text ≠ []) :
    (srtBlockCore i e).getLast? = e.text.getLast? := by
  unfold srtBlockCore
  rw [List.getLast?_append_of_ne_nil _ (by simp),
    getLast?_cons_ne_nil (by simp),
    List.getLast?_append_of_ne_nil _ (by simp),
    getLast?_cons_ne_nil (by simp), getLast?_cons_ne_nil (by simp),
    getLast?_cons_ne_nil (by simp), getLast?_cons_ne_nil (by simp),
    getLast?_cons_ne_nil (by simp [htne]),
    List.getLast?_append_of_ne_nil _ (by simp),
    getLast?_cons_ne_nil htne]

theorem getLast?_trimmed_not_ws (es : List MergedEntry) : ∀ i : Nat,
    (∀ e ∈ es, e.text ≠ [] ∧ pyStrip e.text = e.text) →
    ∀ c, (trimmedBlocks es i).getLast? = some c → pyWs c = false := by
  induction es with
  | nil => intro i _ c hc; cases hc
  | cons e rest ih =>
    intro i hgood c hc
    obtain ⟨htne, htstrip⟩ := hgood e (List.mem_cons_self _ _)
    cases rest with
    | nil =>
      rw [show trimmedBlocks [e] i = srtBlockCore i e from rfl] at hc
      rw [getLast?_core i e htne] at hc
      exact last_not_ws_of_pyStrip_eq htstrip c hc
    | cons e2 rest2 =>
      rw [show trimmedBlocks (e :: e2 :: rest2) i
          = srtBlockCore i e ++ '\n' :: '\n' :: trimmedBlocks (e2 :: rest2) (i + 1)
          from rfl] at hc
      rw [List.getLast?_append_of_ne_nil _ (by simp),
        getLast?_cons_ne_nil (by simp [trimmedBlocks_ne_nil (show e2 :: rest2 ≠ [] from by simp) (i + 1)]),
        getLast?_cons_ne_nil (trimmedBlocks_ne_nil (by simp) (i + 1))] at hc
      exact ih (i + 1) (fun x hx => hgood x (List.mem_cons_of_mem _ hx)) c hc

theorem formatBlocks_eq_trimmed (es : List MergedEntry) : ∀ i : Nat,
    (∀ e ∈ es, pyStrip e.text = e.text) → es ≠ [] →
    formatBlocks es i = trimmedBlocks es i ++ ['\n', '\n'] := by
  induction es with
  | nil => intro i _ h; exact absurd rfl h
  | cons e rest ih =>
    intro i hstrip _
    have hblock := srtBlock_eq_core i e (hstrip e (List.mem_cons_self _ _))
    cases rest with
    | nil =>
      rw [show formatBlocks [e] i = srtBlock i e ++ formatBlocks [] (i + 1) from rfl]
      rw [show formatBlocks ([] : List MergedEntry) (i + 1) = [] from rfl]
      rw [List.append_nil, hblock]
      rfl
    | cons e2 rest2 =>
      rw [show formatBlocks (e :: e2 :: rest2) i
          = srtBlock i e ++ formatBlocks (e2 :: rest2) (i + 1) from rfl]
      rw [ih (i + 1) (fun x hx => hstrip x (List.mem_cons_of_mem _ hx)) (by simp)]
      rw [hblock]
      rw [show trimmedBlocks (e :: e2 :: rest2) i
          = srtBlockCore i e ++ '\n' :: '\n' :: trimmedBlocks (e2 :: rest2) (i + 1)
          from rfl]
      simp [List.append_assoc]

theorem pyStrip_formatSrt (es : List MergedEntry)
    (h : ∀ e ∈ es, e.text ≠ [] ∧ pyStrip e.text = e.text) :
    pyStrip (formatSrt es) = trimmedBlocks es 1 := by
  cases es with
  | nil => rfl
  | cons e rest =>
    unfold formatSrt
    rw [formatBlocks_eq_trimmed (e :: rest) 1 (fun x hx => (h x hx).2) (by simp)]
    rw [show trimmedBlocks (e :: rest) 1 ++ ['\n', '\n']
        = (trimmedBlocks (e :: rest) 1 ++ ['\n']) ++ ['\n'] from by simp]
    rw [pyRstrip_append_ws (by decide), pyRstrip_append_ws (by decide)]
    rw [pyRstrip_eq_self (getLast?_trimmed_not_ws (e :: rest) 1 h)]
    obtain ⟨c0, r0, htr, hc0⟩ := trimmedBlocks_head_digit (show e :: rest ≠ [] from by simp) 1
    unfold pyStrip
    rw [htr]
    rw [show ((c0 :: r0) ++ ['\n']) = c0 :: (r0 ++ ['\n']) from rfl]
    rw [dropWhile_ws_head_cons (pyWs_false_of_digit hc0)]
    rw [show (c0 :: (r0 ++ ['\n'])) = (c0 :: r0) ++ ['\n'] from rfl]
    rw [pyRstrip_append_ws (by decide)]
    rw [← htr]
    exact pyRstrip_eq_self (getLast?_trimmed_not_ws (e :: rest) 1 h)

theorem scanFuel_nil (fuel : Nat) : scanFuel fuel [] = [] := by
  cases fuel <;> rfl

theorem tryMatchAt_not_digit {c : Char} (cs : List Char) (h : c.isDigit = false) :
    tryMatchAt (c :: cs) = none := by
  unfold tryMatchAt
  rw [List.takeWhile_cons, h]
  simp

theorem length_srtBlockCore_pos (i : Nat) (e : MergedEntry) :
    1 ≤ (srtBlockCore i e).length := by
  obtain ⟨c0, cs0, hnc⟩ := List.exists_cons_of_ne_nil (natToChars_ne_nil i)
  unfold srtBlockCore
  rw [hnc]
  simp

theorem scanFuel_trimmed (es : List MergedEntry) : ∀ (i fuel : Nat),
    (∀ e ∈ es, isTsShape e.start = true ∧ isTsShape e.stop = true ∧
      e.text ≠ [] ∧ pyStrip e.text = e.text ∧ hasBlankPair e.text = false) →
    (trimmedBlocks es i).length ≤ fuel →
    scanFuel fuel (trimmedBlocks es i) = parsedOf es i := by
  induction es with
  | nil =>
    intro i fuel _ _
    rw [show trimmedBlocks [] i = [] from rfl, scanFuel_nil]
    rfl
  | cons e rest ih =>
    intro i fuel hgood hlen
    obtain ⟨hts1, hts2, htne, htstrip, htblank⟩ := hgood e (List.mem_cons_self _ _)
    cases rest with
    | nil =>
      rw [show trimmedBlocks [e] i = srtBlockCore i e from rfl] at hlen ⊢
      obtain ⟨c0, r0, htr, _⟩ : ∃ c r, srtBlockCore i e = c :: r ∧ c.isDigit = true := by
        have := trimmedBlocks_head_digit (show [e] ≠ [] from by simp) i
        simpa [show trimmedBlocks [e] i = srtBlockCore i e from rfl] using this
      have hcore : tryMatchAt (srtBlockCore i e) = some (⟨i, e.start, e.stop, e.text⟩, []) := by
        have := tryMatchAt_block i e [] hts1 hts2 htne htstrip htblank (Or.inl rfl)
        simpa using this
      cases fuel with
      | zero =>
        exfalso
        rw [htr] at hlen
        simp at hlen
      | succ f =>
        rw [htr, scanFuel, ← htr, hcore]
        dsimp only
        rw [scanFuel_nil]
        rfl
    | cons e2 rest2 =>
      have htrim : trimmedBlocks (e :: e2 :: rest2) i
          = srtBlockCore i e ++ '\n' :: '\n' :: trimmedBlocks (e2 :: rest2) (i + 1) := rfl
      obtain ⟨d0, R0, htr2, hd0⟩ :=
        trimmedBlocks_head_digit (show e2 :: rest2 ≠ [] from by simp) (i + 1)
      have hQ : ('\n' :: '\n' :: trimmedBlocks (e2 :: rest2) (i + 1)) = [] ∨
          ∃ d R, ('\n' :: '\n' :: trimmedBlocks (e2 :: rest2) (i + 1))
            = '\n' :: '\n' :: d :: R ∧ d.isDigit = true := by
        right
        exact ⟨d0, R0, by rw [htr2], hd0⟩
      have hcore := tryMatchAt_block i e _ hts1 hts2 htne htstrip htblank hQ
      obtain ⟨c0, r0, htr, _⟩ :=
        trimmedBlocks_head_digit (show e :: e2 :: rest2 ≠ [] from by simp) i
      have hlen1 : 1 ≤ (srtBlockCore i e).length := length_srtBlockCore_pos i e
      have hlentr := hlen
      rw [htrim] at hlentr
      simp only [List.length_append, List.length_cons] at hlentr
      cases fuel with
      | zero => omega
      | succ f =>
        rw [htr, scanFuel, ← htr, htrim, hcore]
        dsimp only
        have hrest : ∀ x ∈ e2 :: rest2,
            isTsShape x.start = true ∧ isTsShape x.stop = true ∧
            x.text ≠ [] ∧ pyStrip x.text = x.text ∧ hasBlankPair x.text = false :=
          fun x hx => hgood x (List.mem_cons_of_mem _ hx)
        cases f with
        | zero => omega
        | succ f1 =>
          rw [scanFuel]
          rw [tryMatchAt_not_digit _ (by decide)]
          dsimp only
          cases f1 with
          | zero => omega
          | succ f2 =>
            rw [scanFuel]
            rw [tryMatchAt_not_digit _ (by decide)]
            dsimp only
            rw [ih (i + 1) f2 hrest (by omega)]
            rfl

theorem parsedOf_fields (es : List MergedEntry) : ∀ i : Nat,
    (parsedOf es i).map (fun x => (x.start, x.stop, x.text))
      = es.map (fun x => (x.start, x.stop, x.text)) := by
  induction es with
  | nil => intro i; rfl
  | cons e rest ih =>
    intro i
    rw [show parsedOf (e :: rest) i = ⟨i, e.start, e.stop, e.text⟩ :: parsedOf rest (i + 1)
      from rfl]
    simp only [List.map_cons, ih (i + 1)]

theorem parsedOf_index (es : List MergedEntry) : ∀ i : Nat,
    (parsedOf es i).map (fun x => x.index) = List.range' i es.length := by
  induction es with
  | nil => intro i; rfl
  | cons e rest ih =>
    intro i
    rw [show parsedOf (e :: rest) i = ⟨i, e.start, e.stop, e.text⟩ :: parsedOf rest (i + 1)
      from rfl]
    simp only [List.map_cons, ih (i + 1), List.length_cons, List.range'_succ]

/-- C9 (amended): for every entry sequence whose timestamps are in the
canonical `dd:dd:dd,ddd` shape with exactly two hour digits and whose texts
are non-empty, stripped and free of embedded blank lines, parsing the
serialized text reproduces every entry's start, end and text in order, with
the indices renumbered 1..N. -/
theorem C9_round_trip_amended (es : List MergedEntry)
    (h : ∀ e ∈ es, isTsShape e.start = true ∧ isTsShape e.stop = true ∧
      e.text ≠ [] ∧ pyStrip e.text = e.text ∧ hasBlankPair e.text = false) :
    (parseSrt (formatSrt es)).map (fun x => (x.start, x.stop, x.text))
      = es.map (fun x => (x.start, x.stop, x.text)) ∧
    (parseSrt (formatSrt es)).map (fun x => x.index) = List.range' 1 es.length := by
  have hps : pyStrip (formatSrt es) = trimmedBlocks es 1 :=
    pyStrip_formatSrt es (fun e he => ⟨(h e he).2.2.1, (h e he).2.2.2.1⟩)
  unfold parseSrt
  rw [hps]
  rw [scanFuel_trimmed es 1 _ h (le_refl _)]
  exact ⟨parsedOf_fields es 1, parsedOf_index es 1⟩

/-- Closed instance of C9's amended statement at a concrete input. -/
theorem C9_round_trip_amended_witness :
    (∀ e ∈ ([⟨"00:00:01,000".toList, "00:00:02,500".toList, "Hello world".toList⟩,
        ⟨"00:00:02,500".toList, "00:00:04,000".toList, "Second".toList⟩] :
          List MergedEntry),
      isTsShape e.start = true ∧ isTsShape e.stop = true ∧
      e.text ≠ [] ∧ pyStrip e.text = e.text ∧ hasBlankPair e.text = false) ∧
    ((parseSrt (formatSrt
        [⟨"00:00:01,000".toList, "00:00:02,500".toList, "Hello world".toList⟩,
         ⟨"00:00:02,500".toList, "00:00:04,000".toList, "Second".toList⟩])).map
        (fun x => (x.start, x.stop, x.text))
      = [(("00:00:01,000".toList : List Char), ("00:00:02,500".toList : List Char),
          ("Hello world".toList : List Char)),
         (("00:00:02,500".toList : List Char), ("00:00:04,000".toList : List Char),
          ("Second".toList : List Char))] ∧
     (parseSrt (formatSrt
        [⟨"00:00:01,000".toList, "00:00:02,500".toList, "Hello world".toList⟩,
         ⟨"00:00:02,500".toList, "00:00:04,000".toList, "Second".toList⟩])).map
        (fun x => x.index) = List.range' 1 2) :=
  ⟨by decide, C9_round_trip_amended _ (by decide)⟩

/-! ## Lemmas: a successful match consumes input, so the input length is
enough fuel for the scanner -/

theorem tailMatch_suffix {t : List Char} : ∀ {r : List Char},
    tailMatch t = some r → r <:+ t := by
  induction t with
  | nil =>
    intro r h
    rw [show tailMatch [] = some [] from rfl] at h
    injection h with h
    subst h
    exact List.nil_suffix
  | cons c cs ih =>
    intro r h
    rw [tailMatch] at h
    by_cases hw : pyWs c = true
    · rw [if_pos hw] at h
      cases hm : tailMatch cs with
      | some r2 =>
        rw [hm] at h
        injection h with h
        subst h
        exact (ih hm).trans (List.suffix_cons c cs)
      | none =>
        rw [hm] at h
        by_cases hL : lookaheadOk (c :: cs) = true
        · rw [if_pos hL] at h
          injection h with h
          subst h
          exact List.suffix_refl _
        · rw [if_neg hL] at h
          cases h
    · rw [if_neg hw] at h
      by_cases hL : lookaheadOk (c :: cs) = true
      · rw [if_pos hL] at h
        injection h with h
        subst h
        exact List.suffix_refl _
      · rw [if_neg hL] at h
        cases h

theorem lazyText_suffix {t : List Char} : ∀ {p : List Char × List Char},
    lazyText t = some p → p.2 <:+ t := by
  induction t with
  | nil =>
    intro p h
    rw [show lazyText [] = some ([], []) from rfl] at h
    injection h with h
    subst h
    exact List.nil_suffix
  | cons c cs ih =>
    intro p h
    rw [lazyText] at h
    cases hm : tailMatch (c :: cs) with
    | some r =>
      rw [hm] at h
      injection h with h
      subst h
      exact tailMatch_suffix hm
    | none =>
      rw [hm] at h
      cases hl : lazyText cs with
      | some q =>
        rw [hl] at h
        injection h with h
        subst h
        exact (ih hl).trans (List.suffix_cons c cs)
      | none =>
        rw [hl] at h
        cases h

theorem matchTimestamp_suffix {t : List Char} {p : List Char × List Char}
    (h : matchTimestamp t = some p) : p.2 <:+ t := by
  unfold matchTimestamp at h
  split at h
  · split at h
    · injection h with h
      subst h
      rename_i a b c d e f g h2 i j k l rest _
      exact ⟨[a, b, c, d, e, f, g, h2, i, j, k, l], rfl⟩
    · cases h
  · cases h

theorem matchArrow_suffix {t r : List Char} (h : matchArrow t = some r) :
    r <:+ t := by
  unfold matchArrow at h
  split at h
  · injection h with h
    subst h
    exact ⟨['-', '-', '>'], rfl⟩
  · cases h

theorem matchAfterIndex_suffix {s : List Char}
    {p : (List Char × List Char × List Char) × List Char}
    (h : matchAfterIndex s = some p) : p.2 <:+ s := by
  unfold matchAfterIndex at h
  cases h1 : matchTimestamp (s.dropWhile pyWs) with
  | none => rw [h1] at h; cases h
  | some q1 =>
    obtain ⟨ts1, s2⟩ := q1
    rw [h1] at h
    dsimp only at h
    cases h2 : matchArrow (s2.dropWhile pyWs) with
    | none => rw [h2] at h; cases h
    | some s4 =>
      rw [h2] at h
      dsimp only at h
      cases h3 : matchTimestamp (s4.dropWhile pyWs) with
      | none => rw [h3] at h; cases h
      | some q2 =>
        obtain ⟨ts2, s6⟩ := q2
        rw [h3] at h
        dsimp only at h
        cases h4 : lazyText (s6.dropWhile pyWs) with
        | none => rw [h4] at h; cases h
        | some q3 =>
          obtain ⟨txt, rest⟩ := q3
          rw [h4] at h
          dsimp only at h
          injection h with h
          subst h
          have c1 : s2 <:+ s := by
            have := matchTimestamp_suffix h1
            exact this.trans (List.dropWhile_suffix pyWs)
          have c2 : s4 <:+ s :=
            ((matchArrow_suffix h2).trans (List.dropWhile_suffix pyWs)).trans c1
          have c3 : s6 <:+ s := by
            have := matchTimestamp_suffix h3
            exact (this.trans (List.dropWhile_suffix pyWs)).trans c2
          have c4 : rest <:+ s := by
            have := lazyText_suffix h4
            exact (this.trans (List.dropWhile_suffix pyWs)).trans c3
          exact c4

theorem tryIdxLen_lt {s : List Char} : ∀ {k : Nat} {p : SrtEntry × List Char},
    tryIdxLen k s = some p → p.2.length < s.length := by
  intro k
  induction k with
  | zero => intro p h; cases h
  | succ k ih =>
    intro p h
    rw [tryIdxLen] at h
    cases hm : matchAfterIndex (s.drop (k + 1)) with
    | some q =>
      rw [hm] at h
      injection h with h
      subst h
      by_cases hz : s.length ≤ k + 1
      · rw [List.drop_eq_nil_of_le hz] at hm
        rw [show matchAfterIndex [] = none from rfl] at hm
        cases hm
      · have hd := (matchAfterIndex_suffix hm).length_le
        rw [List.length_drop] at hd
        dsimp only
        omega
    | none =>
      rw [hm] at h
      exact ih h

theorem tryMatchAt_lt {s : List Char} {p : SrtEntry × List Char}
    (h : tryMatchAt s = some p) : p.2.length < s.length := by
  unfold tryMatchAt at h
  dsimp only at h
  split at h
  · cases h
  · exact tryIdxLen_lt h

/-- Fuel irrelevance for the scanner: any fuel at least the input length
gives the same result, so `parseSrt`'s choice of the input length as fuel
computes the unbounded scan. -/
theorem scanFuel_ge : ∀ (f g : Nat) (s : List Char),
    s.length ≤ f → s.length ≤ g → scanFuel f s = scanFuel g s := by
  intro f
  induction f with
  | zero =>
    intro g s hf _
    rw [show s = [] from List.eq_nil_of_length_eq_zero (by omega)]
    rw [scanFuel_nil, scanFuel_nil]
  | succ f ih =>
    intro g s hf hg
    cases s with
    | nil => rw [scanFuel_nil, scanFuel_nil]
    | cons c cs =>
      cases g with
      | zero => simp at hg
      | succ g' =>
        rw [scanFuel, scanFuel]
        cases hm : tryMatchAt (c :: cs) with
        | some p =>
          have hlt := tryMatchAt_lt hm
          simp only [List.length_cons] at hf hg hlt
          dsimp only
          rw [ih g' p.2 (by omega) (by omega)]
        | none =>
          simp only [List.length_cons] at hf hg
          dsimp only
          rw [ih g' cs (by omega) (by omega)]
